import Mathlib

/-
  Verification of the consensus core of the Axiom-Protocol blockchain node.

  Shallow embedding conventions:
  * Rust `u64` values are modelled as `Nat`; an explicit `% 2^64` (or a
    saturating `min`) appears exactly at the operations whose overflow
    behaviour is observable in the source (release-mode wrapping semantics).
  * 32-byte digests are modelled as `List Nat` (one entry per byte).
    Cryptographic hash functions (SHA-256, BLAKE3) and the sequential VDF
    (whose implementation lives in the absent `src/main_helper.rs`) are
    parameters of the development, collected in `HashOracle`; every function
    that hashes is faithful about *which bytes* are fed to the hash.
  * Rust `HashMap<Address, u64>` state tables are modelled as total functions
    with default value 0, which is observationally the map's get-or-default
    behaviour; `HashSet` is modelled as a duplicate-free `List`.
-/

namespace AXM

/-- Two to the sixty-fourth power: the modulus of Rust `u64` arithmetic. -/
def U64 : Nat := 2 ^ 64

/-- The largest `u64` value, `u64::MAX`. -/
def U64MAX : Nat := 2 ^ 64 - 1

/-- A 32-byte digest, one list entry per byte. -/
abbrev Digest := List Nat

/-- A 32-byte account address (`[u8; 32]`), modelled as a natural number;
the all-zero address is `0`. -/
abbrev Address := Nat

/-- Field-for-field embedding of `Transaction`
(`{from, to, amount, fee, nonce, zk_proof, signature}`); the struct itself is
declared in the absent `src/transaction.rs` but its exact field list appears in
`src/mempool.rs` tests and the spec's data model. `from` is a Lean keyword, so
the field is named `from_` and `to` is named `to_`. -/
structure Transaction where
  from_ : Address
  to_ : Address
  amount : Nat
  fee : Nat
  nonce : Nat
  zk_proof : List Nat
  signature : List Nat
deriving DecidableEq, Repr

/-- Embedding of `State` from `src/state.rs`: balances and nonces are
`HashMap<Address, u64>` with default 0, modelled as total functions. -/
structure State where
  balances : Address → Nat
  total_issued : Nat
  nonces : Address → Nat

/-- Embedding of `State::new` from `src/state.rs`. -/
def State.new : State := ⟨fun _ => 0, 0, fun _ => 0⟩

/-- Embedding of `State::balance`: `*self.balances.get(addr).unwrap_or(&0)`. -/
def State.balance (s : State) (addr : Address) : Nat := s.balances addr

/-- Embedding of `State::nonce`: `*self.nonces.get(addr).unwrap_or(&0)`. -/
def State.nonce (s : State) (addr : Address) : Nat := s.nonces addr

/-- Embedding of `State::credit` from `src/state.rs`: `bal + amount` is a `u64` addition,
hence the explicit wrap. -/
def State.credit (s : State) (addr : Address) (amount : Nat) : State :=
  { s with balances := fun a => if a = addr then (s.balance addr + amount) % U64 else s.balances a }

/-- Embedding of `State::apply_tx` from `src/state.rs` lines 59-78. `cost = tx.amount + tx.fee`
is a `u64` addition (wraps); the debit `sender_bal - cost` cannot underflow behind
the balance check; the credit and the nonce increment are `u64` additions. -/
def State.apply_tx (s : State) (tx : Transaction) : Except String State :=
  let sender_bal := s.balance tx.from_
  let sender_nonce := s.nonce tx.from_
  let cost := (tx.amount + tx.fee) % U64
  if sender_bal < cost then .error "Insufficient balance"
  else if tx.nonce ≠ sender_nonce then .error "Invalid nonce"
  else
    let s1 : State :=
      { s with balances := fun a => if a = tx.from_ then sender_bal - cost else s.balances a }
    let s2 := s1.credit tx.to_ tx.amount
    .ok { s2 with nonces := fun a => if a = tx.from_ then (sender_nonce + 1) % U64 else s2.nonces a }

/-- Embedding of `TOTAL_SUPPLY` from `src/economics.rs` (124_000_000_000_000_000). -/
def TOTAL_SUPPLY : Nat := 124000000000000000

/-- Embedding of `SMALLEST_UNIT` from `src/economics.rs`. -/
def SMALLEST_UNIT : Nat := 100000000

/-- Embedding of `INITIAL_REWARD = 50 * SMALLEST_UNIT` from `src/economics.rs`. -/
def INITIAL_REWARD : Nat := 50 * SMALLEST_UNIT

/-- Embedding of `HALVING_INTERVAL` from `src/economics.rs`. -/
def HALVING_INTERVAL : Nat := 1240000

/-- Embedding of `get_mining_reward` from `src/economics.rs` lines 39-49. -/
def get_mining_reward (height : Nat) : Nat :=
  let era := height / HALVING_INTERVAL
  if era ≥ 64 then 0 else INITIAL_REWARD >>> era

/-- Embedding of `block_reward` from `src/economics.rs` lines 53-55: the legacy alias used by
`src/chain.rs`; it ignores its `total_issued` argument. -/
def block_reward (slot : Nat) (_totalIssued : Nat) : Nat := get_mining_reward slot

/-- Field-for-field embedding of `Block` from `src/block.rs`. -/
structure Block where
  parent : Digest
  slot : Nat
  miner : Address
  transactions : List Transaction
  vdf_proof : Digest
  zk_proof : List Nat
  nonce : Nat
deriving DecidableEq, Repr

/-- Big-endian byte rendering of a value on `n` bytes (for `to_be_bytes`
and the manual feed of a 32-byte array into a hasher). -/
def natToBytesBE (n : Nat) (v : Nat) : List Nat :=
  (List.range n).map (fun i => v / 256 ^ (n - 1 - i) % 256)

/-- Embedding of `u64::to_be_bytes`. -/
def u64be (v : Nat) : List Nat := natToBytesBE 8 v

/-- Embedding of `u64::to_le_bytes`. -/
def u64le (v : Nat) : List Nat := (List.range 8).map (fun i => v / 256 ^ i % 256)

/-- The exact byte stream `Block::calculate_hash` (`src/genesis.rs` lines 83-102)
feeds to SHA-256: parent, slot big-endian, miner, vdf_proof, zk_proof, nonce
big-endian — and, deliberately, not the transaction list. -/
def Block.calcHashBytes (b : Block) : List Nat :=
  b.parent ++ u64be b.slot ++ natToBytesBE 32 b.miner ++ b.vdf_proof ++ b.zk_proof ++ u64be b.nonce

/-- Abstract cryptographic primitives the consensus code calls.
`sha256` stands for the SHA-256 compression of a byte stream; `blockHash`
stands for `Block::hash` (`blake3(bincode(block))` in `src/block.rs`, which
hashes the whole block including transactions and is kept opaque because
bincode+BLAKE3 cannot be replayed here); `computeVdf` is
`main_helper::compute_vdf`. Modelled from the spec: `src/main_helper.rs` is
absent from the tree; spec §4.D describes `compute(seed, t)` as `t` sequential
hash applications, so it is kept as an opaque function of seed and iteration
count. -/
structure HashOracle where
  sha256 : List Nat → Digest
  blockHash : Block → Digest
  computeVdf : Digest → Nat → Digest

/-- Embedding of `Block::calculate_hash` from `src/genesis.rs`: SHA-256 over `calcHashBytes`. -/
def Block.calculate_hash (O : HashOracle) (b : Block) : Digest := O.sha256 b.calcHashBytes

/-- Embedding of `Block::hash` from `src/block.rs` lines 66-69 (BLAKE3 of the bincode
serialization of the whole block), kept as the oracle's opaque function. -/
def Block.hash (O : HashOracle) (b : Block) : Digest := O.blockHash b

/-- Embedding of `vdf::evaluate` from `src/vdf.rs`: SHA-256 over parent hash bytes followed
by the slot in little-endian. -/
def vdfEvaluate (O : HashOracle) (parent_hash : Digest) (slot : Nat) : Digest :=
  O.sha256 (parent_hash ++ u64le slot)

/-- Embedding of `u64::from_be_bytes` of the first 8 bytes of a digest, as in
`Block::meets_difficulty` (`src/block.rs` lines 76-82). -/
def first8BE (h : Digest) : Nat := (h.take 8).foldl (fun acc b => acc * 256 + b) 0

/-- The numeric comparison of `Block::meets_difficulty` (`src/block.rs` lines
72-86), factored over the digest: first 8 bytes as a big-endian `u64`, compared
strictly against `u64::MAX / difficulty.max(1)`. -/
def meetsDifficultyVal (h : Digest) (difficulty : Nat) : Bool :=
  first8BE h < U64MAX / (max difficulty 1)

/-- Embedding of `Block::meets_difficulty` from `src/block.rs`. -/
def Block.meets_difficulty (O : HashOracle) (b : Block) (difficulty : Nat) : Bool :=
  meetsDifficultyVal (b.hash O) difficulty

/-- The PoW acceptance predicate as the spec words it (§4.E target mapping):
digest as a big-endian 256-bit integer is at most `(2^256 - 1) / difficulty`.
This definition follows the spec's words, to be compared against the source's
`meetsDifficultyVal`; it coincides with `meets_difficulty` from
`src/consensus/lwma.rs` lines 77-94. -/
def specMeetsDifficulty (h : Digest) (difficulty : Nat) : Bool :=
  h.foldl (fun acc b => acc * 256 + b) 0 ≤ (2 ^ 256 - 1) / difficulty

/-- Embedding of `genesis::verify_zk_pass` from `src/genesis.rs` lines 9-11:
`proof.len() == 128 && miner_address != &[0u8; 32]`. -/
def verify_zk_pass (miner_address : Address) (_parent : Digest) (proof : List Nat) : Bool :=
  proof.length == 128 && miner_address != 0

/-- Embedding of `genesis::genesis()` from `src/genesis.rs` lines 62-81: the immutable
genesis block. -/
def genesisBlock : Block :=
  { parent := List.replicate 32 0
    slot := 0
    miner := 0
    transactions := []
    vdf_proof := List.replicate 32 0
    zk_proof := List.replicate 128 0
    nonce := 0 }

/-- Modelled from the spec: `Transaction::validate` is declared in
`src/transaction.rs`, which is absent from the source tree; `src/chain.rs`
calls it as `tx.validate(sender_balance)`. Per spec §3 and §4.B the
per-transaction admission check against a sender balance is that the `u64`
cost `amount + fee` is covered by the balance. -/
def Transaction.validate (tx : Transaction) (sender_balance : Nat) : Except String Unit :=
  if sender_balance < (tx.amount + tx.fee) % U64 then .error "Insufficient balance" else .ok ()

/-- Embedding of `TARGET_TIME` from `src/chain.rs`. -/
def TARGET_TIME : Nat := 1800

/-- The hard-coded `GENESIS_ANCHOR` hex string of `src/chain.rs` line 14,
decoded to its 32 bytes (the embedding compares digests at the byte level
instead of comparing `hex::encode` strings, which is equivalent because hex
encoding is injective on 32-byte arrays). -/
def GENESIS_ANCHOR : Digest :=
  [0x2d, 0xfb, 0xa6, 0x33, 0x81, 0x70, 0x46, 0xc7,
   0xf5, 0x59, 0xed, 0x4b, 0x93, 0x07, 0x60, 0x48,
   0x43, 0x5f, 0x7e, 0x1a, 0x90, 0xf1, 0x4e, 0xb8,
   0x03, 0x5c, 0x04, 0xb9, 0xeb, 0xae, 0x25, 0x37]

/-- Field-for-field embedding of `Timechain` from `src/chain.rs`;
`seen_hashes: HashSet<[u8; 32]>` is modelled as a duplicate-free list. -/
structure Timechain where
  blocks : List Block
  state : State
  difficulty : Nat
  seen_hashes : List Digest
  total_issued : Nat

/-- Embedding of `HashSet::insert` on the modelled `seen_hashes`. -/
def hsetInsert (s : List Digest) (h : Digest) : List Digest := if h ∈ s then s else h :: s

/-- The transaction replay of `Timechain::rebuild_state` (`src/chain.rs` lines
61-65): apply each transaction, ignoring failures. -/
def rebuildTxs (s : State) : List Transaction → State
  | [] => s
  | tx :: rest =>
    match s.apply_tx tx with
    | .ok s' => rebuildTxs s' rest
    | .error _ => rebuildTxs s rest

/-- One block of the `Timechain::rebuild_state` loop (`src/chain.rs` lines
52-66): credit the mining reward when it is positive and the miner is nonzero,
then replay the transactions. -/
def rebuildStep (acc : State × Nat) (b : Block) : State × Nat :=
  let reward := block_reward b.slot acc.2
  let acc' :=
    if 0 < reward ∧ b.miner ≠ 0 then
      (acc.1.credit b.miner reward, (acc.2 + reward) % U64)
    else acc
  (rebuildTxs acc'.1 b.transactions, acc'.2)

/-- Embedding of `Timechain::rebuild_state` from `src/chain.rs` lines 48-67. -/
def Timechain.rebuild_state (tc : Timechain) : Timechain :=
  let sr := tc.blocks.foldl rebuildStep (State.new, 0)
  { tc with state := sr.1, total_issued := sr.2 }

/-- Embedding of `Timechain::new` from `src/chain.rs` lines 25-45. The genesis-anchor
mismatch panic (a fatal process exit) is modelled as `none`. -/
def Timechain.new (O : HashOracle) (genesis : Block) : Option Timechain :=
  if genesis.calculate_hash O = GENESIS_ANCHOR then
    some (Timechain.rebuild_state
      { blocks := [genesis], state := State.new, difficulty := 1000,
        seen_hashes := [], total_issued := 0 })
  else none

/-- The step-5 loop of `Timechain::add_block` (`src/chain.rs` lines 101-104):
validate every transaction against the balance it has in the *current* (not
sequentially updated) state, short-circuiting on the first error. -/
def validateTxs (s : State) : List Transaction → Except String Unit
  | [] => .ok ()
  | tx :: rest =>
    match tx.validate (s.balance tx.from_) with
    | .error e => .error e
    | .ok _ => validateTxs s rest

/-- The step-8 loop of `Timechain::add_block` (`src/chain.rs` lines 122-127):
apply transactions in order; on the first failure return the error, keeping the
state produced by the transactions already applied. -/
def applyTxsPartial (s : State) : List Transaction → Option String × State
  | [] => (none, s)
  | tx :: rest =>
    match s.apply_tx tx with
    | .error _ => (some "Transaction application failed", s)
    | .ok s' => applyTxsPartial s' rest

/-- Embedding of `Timechain::adjust_difficulty` from `src/chain.rs` lines 136-143
(`saturating_add(1)` and `saturating_sub(1).max(1)` on a `u64`). -/
def Timechain.adjust_difficulty (tc : Timechain) (elapsed : Nat) : Timechain :=
  if elapsed < TARGET_TIME then { tc with difficulty := min (tc.difficulty + 1) U64MAX }
  else if elapsed > TARGET_TIME then { tc with difficulty := max (tc.difficulty - 1) 1 }
  else tc

/-- Embedding of `Timechain::add_block` from `src/chain.rs` lines 70-133, as a pure function
returning the `Result` together with the post-call chain — the Rust method
mutates `&mut self`, and the transaction-application failure of step 8 happens
*after* the block, the reward and the earlier transactions were applied, so the
chain component of the result carries those mutations. `self.blocks.last()`
can never see an empty list (every chain starts from a genesis block); the
model supplies `genesisBlock` as the impossible-default. The VDF iteration
count is `self.difficulty as u32`, hence the `% 2^32`. -/
def Timechain.add_block (O : HashOracle) (tc : Timechain) (block : Block) (elapsed : Nat) :
    Except String Unit × Timechain :=
  let block_hash := block.calculate_hash O
  if block_hash ∈ tc.seen_hashes then
    (.error "Block already exists (Injection Attack thwarted)", tc)
  else if block.parent ≠ (tc.blocks.getLast?.getD genesisBlock).hash O then
    (.error "Invalid parent hash", tc)
  else if block.slot ≠ tc.blocks.length then
    (.error "Invalid block slot", tc)
  else if block.vdf_proof ≠
      O.computeVdf (vdfEvaluate O block.parent block.slot) (tc.difficulty % 2 ^ 32) then
    (.error "Invalid VDF proof", tc)
  else if block.meets_difficulty O tc.difficulty = false then
    (.error "Block doesn't meet difficulty requirement", tc)
  else
    match validateTxs tc.state block.transactions with
    | .error e => (.error e, tc)
    | .ok _ =>
      if verify_zk_pass block.miner block.parent block.zk_proof = false then
        (.error "Invalid miner ZK pass", tc)
      else
        let tc1 := { tc with
          seen_hashes := hsetInsert tc.seen_hashes block_hash,
          blocks := tc.blocks ++ [block] }
        let reward := block_reward block.slot tc1.total_issued
        let tc2 :=
          if 0 < reward ∧ block.miner ≠ 0 then
            { tc1 with
              state := tc1.state.credit block.miner reward,
              total_issued := (tc1.total_issued + reward) % U64 }
          else tc1
        match applyTxsPartial tc2.state block.transactions with
        | (some e, s) => (.error e, { tc2 with state := s })
        | (none, s) => (.ok (), Timechain.adjust_difficulty { tc2 with state := s } elapsed)

/-- Embedding of `calculate_chain_work` from `src/main.rs` lines 64-66:
`Σ max(block.nonce, 1)` (a `u64` sum, hence the wrap; it is unreachable for
chains whose summed nonces stay below `2^64`). -/
def calculate_chain_work (tc : Timechain) : Nat :=
  (tc.blocks.map (fun b => max b.nonce 1)).foldl (fun acc w => (acc + w) % U64) 0

/-- The replay loop of `validate_and_sync_chain` (`src/main.rs` lines 38-49):
feed each peer block after the first through full `add_block` validation with
`elapsed = 1800`, aborting on the first rejection. -/
def syncReplay (O : HashOracle) : Timechain → List Block → Option Timechain
  | tc, [] => some tc
  | tc, b :: rest =>
    match Timechain.add_block O tc b 1800 with
    | (.ok _, tc') => syncReplay O tc' rest
    | (.error _, _) => none

/-- Embedding of `validate_and_sync_chain` from `src/main.rs` lines 23-61. The
`current_chain.blocks[0]` access presupposes a nonempty local chain (every
`Timechain` holds at least the genesis block); the inner `Timechain::new`
would panic on an anchor mismatch, modelled as no adoption. -/
def validate_and_sync_chain (O : HashOracle) (peer_blocks : List Block)
    (current_chain : Timechain) : Option Timechain :=
  match peer_blocks with
  | [] => none
  | pb0 :: rest =>
    if pb0.hash O ≠ (current_chain.blocks.headD genesisBlock).hash O then none
    else
      match Timechain.new O genesisBlock with
      | none => none
      | some base =>
        match syncReplay O base rest with
        | none => none
        | some candidate =>
          if candidate.blocks.length > current_chain.blocks.length ∨
              calculate_chain_work candidate > calculate_chain_work current_chain then
            some candidate
          else none

/-- The error type of `src/mempool.rs` (`crate::error::AxiomError`, whose
defining file `src/error.rs` is absent from the tree). Modelled from the spec:
§7 lists the mempool error kinds, and `src/mempool.rs` constructs exactly
these variants with these payloads. -/
inductive AxmError where
  | SerializationError : String → AxmError
  | TransactionTooLarge : (size : Nat) → (max : Nat) → AxmError
  | DuplicateTransaction : AxmError
  | NullifierUsed : AxmError
  | FeeTooLow : (min : Nat) → (actual : Nat) → AxmError
deriving DecidableEq, Repr

/-- Byte length of `bincode::serialize(&tx)` under bincode's default
configuration: two 32-byte addresses, three fixed 8-byte `u64` fields and two
`u64`-length-prefixed byte vectors. -/
def txSize (tx : Transaction) : Nat := 104 + tx.zk_proof.length + tx.signature.length

/-- Embedding of `Mempool` from `src/mempool.rs`. Digests are modelled by
their preimages (a collision-free abstraction): the `tx.hash()` key of
`transactions` and of the two index maps is the transaction value itself, and
the nullifier `Sha256(from || nonce.to_le_bytes())` is the pair
`(from, nonce)`. `by_fee: BTreeMap<u64, HashSet<hash>>` is a list of buckets
sorted by strictly ascending fee; `by_sender: HashMap<Address, Vec<hash>>` is
a total function with default `[]` (the code drops a sender's entry exactly
when its vector empties, which this identifies). -/
structure Mempool where
  transactions : List Transaction
  by_fee : List (Nat × List Transaction)
  by_sender : Address → List Transaction
  nullifiers : List (Address × Nat)
  max_size : Nat
  max_tx_size : Nat

/-- Embedding of `Mempool::with_capacity` from `src/mempool.rs`. -/
def Mempool.with_capacity (max_size max_tx_size : Nat) : Mempool :=
  ⟨[], [], fun _ => [], [], max_size, max_tx_size⟩

/-- Embedding of `Mempool::new` from `src/mempool.rs` (defaults 100_000 and 100_000). -/
def Mempool.newDefault : Mempool := Mempool.with_capacity 100000 100000

/-- Embedding of `HashSet::insert` into a fee bucket. -/
def bucketInsert (s : List Transaction) (tx : Transaction) : List Transaction :=
  if tx ∈ s then s else s ++ [tx]

/-- Embedding of `self.by_fee.entry(tx.fee).or_default().insert(hash)` on the sorted
bucket-list model of the `BTreeMap`. -/
def byFeeAdd : List (Nat × List Transaction) → Nat → Transaction → List (Nat × List Transaction)
  | [], fee, tx => [(fee, [tx])]
  | (f, s) :: rest, fee, tx =>
    if fee < f then (fee, [tx]) :: (f, s) :: rest
    else if fee = f then (f, bucketInsert s tx) :: rest
    else (f, s) :: byFeeAdd rest fee tx

/-- The `by_fee` part of `Mempool::remove`: delete the hash from the fee's
bucket and drop the bucket when it empties. -/
def byFeeRemove : List (Nat × List Transaction) → Nat → Transaction → List (Nat × List Transaction)
  | [], _, _ => []
  | (f, s) :: rest, fee, tx =>
    if fee = f then
      let s' := s.erase tx
      if s' = [] then rest else (f, s') :: rest
    else (f, s) :: byFeeRemove rest fee tx

/-- Embedding of `Mempool::remove` from `src/mempool.rs` lines 150-184, pure form returning
the removed transaction together with the post-call pool. -/
def Mempool.remove (mp : Mempool) (tx : Transaction) : Option Transaction × Mempool :=
  if tx ∈ mp.transactions then
    (some tx,
      { mp with
        transactions := mp.transactions.erase tx
        by_fee := byFeeRemove mp.by_fee tx.fee tx
        by_sender := fun a =>
          if a = tx.from_ then (mp.by_sender tx.from_).filter (fun t => t ≠ tx)
          else mp.by_sender a
        nullifiers := mp.nullifiers.erase (tx.from_, tx.nonce) })
  else (none, mp)

/-- Embedding of `Mempool::evict_lowest_fee` from `src/mempool.rs` lines 206-212:
`by_fee.iter().next()` is the lowest-fee bucket (the head of the sorted
bucket list); an arbitrary element of that `HashSet` — its head in this
model — is removed. -/
def Mempool.evict_lowest_fee (mp : Mempool) : Mempool :=
  match mp.by_fee.head? with
  | some (_, tx :: _) => (mp.remove tx).2
  | _ => mp

/-- The final four index insertions of `Mempool::add`
(`src/mempool.rs` lines 103-115). -/
def Mempool.insertIndexes (mp : Mempool) (tx : Transaction) : Mempool :=
  { mp with
    by_fee := byFeeAdd mp.by_fee tx.fee tx
    by_sender := fun a =>
      if a = tx.from_ then mp.by_sender tx.from_ ++ [tx] else mp.by_sender a
    nullifiers :=
      if (tx.from_, tx.nonce) ∈ mp.nullifiers then mp.nullifiers
      else (tx.from_, tx.nonce) :: mp.nullifiers
    transactions :=
      if tx ∈ mp.transactions then mp.transactions else mp.transactions ++ [tx] }

/-- Embedding of `Mempool::add` from `src/mempool.rs` lines 52-118. Every error is returned
before any mutation (the eviction branch cannot fail afterwards), so the pure
`Except` form loses no state. -/
def Mempool.add (mp : Mempool) (tx : Transaction) : Except AxmError Mempool :=
  let tx_size := txSize tx
  if tx_size > mp.max_tx_size then .error (.TransactionTooLarge tx_size mp.max_tx_size)
  else if tx ∈ mp.transactions then .error .DuplicateTransaction
  else if (tx.from_, tx.nonce) ∈ mp.nullifiers then .error .NullifierUsed
  else if mp.transactions.length ≥ mp.max_size then
    match mp.by_fee.head? with
    | some (lowest_fee, _) =>
      if tx.fee ≤ lowest_fee then .error (.FeeTooLow (lowest_fee + 1) tx.fee)
      else .ok ((mp.evict_lowest_fee).insertIndexes tx)
    | none => .ok (mp.insertIndexes tx)
  else .ok (mp.insertIndexes tx)

/-- Embedding of `TARGET_BLOCK_TIME` from `src/consensus/lwma.rs`. -/
def TARGET_BLOCK_TIME : Nat := 1800

/-- Embedding of `LWMA_WINDOW` from `src/consensus/lwma.rs`. -/
def LWMA_WINDOW : Nat := 60

/-- Embedding of `MIN_DIFFICULTY` from `src/consensus/lwma.rs`. -/
def MIN_DIFFICULTY : Nat := 1000

/-- Embedding of `u64::saturating_add`. -/
def satAdd (a b : Nat) : Nat := min (a + b) U64MAX

/-- Embedding of `u64::saturating_mul`. -/
def satMul (a b : Nat) : Nat := min (a * b) U64MAX

/-- Embedding of `BlockHeader` from `src/consensus/lwma.rs`; the `BigUint` difficulty is a
`Nat`. -/
structure BlockHeader where
  height : Nat
  timestamp : Nat
  difficulty : Nat
deriving DecidableEq, Repr

/-- The accumulation loop of `calculate_lwma_difficulty` (`src/consensus/lwma.rs`
lines 42-51): after `k` iterations (loop variable `i` running `1..=k`), the
pair (`weighted_times`, `sum_difficulties`), with the window accessed through
an index function. -/
def lwmaAccum (w : Nat → BlockHeader) : Nat → Nat × Nat
  | 0 => (0, 0)
  | k + 1 =>
    let acc := lwmaAccum w k
    let i := k + 1
    let time_delta := max ((w i).timestamp - (w (i - 1)).timestamp) 1
    (satAdd acc.1 (satMul time_delta i), acc.2 + (w i).difficulty)

/-- Embedding of `calculate_lwma_difficulty` from `src/consensus/lwma.rs` lines 31-74.
The three `f64` steps (`weighted_times as f64 / expected_times as f64`, the
clamp to `[0.33, 3.0]`, and `avg_difficulty.to_f64() * clamped` truncated
back by `as u64`, which saturates at `u64::MAX`) are modelled over `ℚ`; this
is exact on every input the theorems below touch: there both integers of the
ratio are equal (the IEEE quotient of equal finite values is exactly 1.0) and
the multiplicand is below `2^53`, hence exactly representable. -/
def calculate_lwma_difficulty (block_headers : List BlockHeader) : Nat :=
  if block_headers.length < LWMA_WINDOW + 1 then MIN_DIFFICULTY
  else
    let start_idx := block_headers.length - (LWMA_WINDOW + 1)
    let w := fun i => (block_headers.drop start_idx).getD i ⟨0, 0, 0⟩
    let acc := lwmaAccum w LWMA_WINDOW
    let weighted_times := acc.1
    let sum_difficulties := acc.2
    let n := LWMA_WINDOW
    let expected_times := satMul (satMul TARGET_BLOCK_TIME n) (n + 1) / 2
    let avg_difficulty := sum_difficulties / LWMA_WINDOW
    let new_difficulty :=
      if weighted_times = 0 ∨ expected_times = 0 then avg_difficulty
      else
        let adjustment : ℚ := (weighted_times : ℚ) / (expected_times : ℚ)
        let clamped : ℚ := min (max adjustment (33 / 100)) 3
        let adjusted : ℚ := (avg_difficulty : ℚ) * clamped
        min (⌊adjusted⌋).toNat U64MAX
    max new_difficulty MIN_DIFFICULTY

/-- The constant-rate header history of the LWMA scenarios (mirrors
`create_test_headers` in the `src/consensus/lwma.rs` tests): `n` headers,
`block_time` seconds apart, at constant difficulty. -/
def stableHeaders (n : Nat) (block_time : Nat) (difficulty : Nat) : List BlockHeader :=
  (List.range n).map (fun i => ⟨i, 1700000000 + block_time * i, difficulty⟩)

/-- The chains a node can hold: the chain constructed by `Timechain::new` on
the genesis block, closed under successful `add_block` calls. -/
inductive Reachable (O : HashOracle) : Timechain → Prop where
  | genesis : ∀ tc, Timechain.new O genesisBlock = some tc → Reachable O tc
  | step : ∀ tc b el tc', Reachable O tc →
      Timechain.add_block O tc b el = (.ok (), tc') → Reachable O tc'

/-- The issuance a block list accounts for: the spec's
`Σ reward(slot_i) for miner_i ≠ 0` (§8.4), restricted to positive rewards
exactly as `src/chain.rs` lines 55 and 117 do. -/
def minerRewardSum (blocks : List Block) : Nat :=
  (blocks.map (fun b =>
    if 0 < get_mining_reward b.slot ∧ b.miner ≠ 0 then get_mining_reward b.slot else 0)).sum

/-- Sum of the first `k` iterated halvings of `c`:
`c + c/2 + (c/2)/2 + ...` (`k` terms). -/
def geomSum (c : Nat) : Nat → Nat
  | 0 => 0
  | k + 1 => c + geomSum (c / 2) k

/-- Sum of `get_mining_reward` over the slots `0, …, n-1`: the largest issuance
any no-gap chain of `n` blocks can have accounted for. -/
def rewardTotal (n : Nat) : Nat := ((List.range n).map get_mining_reward).sum

/-- Cumulative work of a block list, `Σ max(block.nonce, 1)` as in
`calculate_chain_work` (`src/main.rs`), taken over a bare list. -/
def chainWorkList (blocks : List Block) : Nat :=
  (blocks.map (fun b => max b.nonce 1)).foldl (fun acc w => (acc + w) % U64) 0

/-- The all-zero 32-byte digest. -/
def zeros32 : Digest := List.replicate 32 0

/-- The all-ones (0xff) 32-byte digest, whose big-endian value is `2^256 - 1`. -/
def digestFF : Digest := List.replicate 32 255

/-- A concrete SHA-256 instance for the scenario chains: it sends the genesis
block's hash preimage to the hard-coded anchor and is the identity elsewhere
(in particular it is injective on the block preimages the scenarios use). -/
def sha0 : List Nat → Digest :=
  fun bs => if bs = genesisBlock.calcHashBytes then GENESIS_ANCHOR else bs

/-- A concrete oracle for the scenario chains: `sha0` for SHA-256, the all-zero
digest for every BLAKE3 block hash (so parent links and PoW are trivially
consistent) and a constant VDF. -/
def O0 : HashOracle :=
  { sha256 := sha0, blockHash := fun _ => zeros32, computeVdf := fun _ _ => zeros32 }

/-- A concrete oracle whose block digest is all-0xff bytes. -/
def Off : HashOracle :=
  { sha256 := fun bs => bs, blockHash := fun _ => digestFF, computeVdf := fun _ _ => digestFF }

/-- The chain `Timechain::new` builds on the genesis block (difficulty 1000,
state rebuilt from the single genesis block). -/
def tc0 : Timechain :=
  Timechain.rebuild_state
    { blocks := [genesisBlock], state := State.new, difficulty := 1000,
      seen_hashes := [], total_issued := 0 }

/-- Scenario block at slot 1, mined by address 1, no transactions; under `O0`
it passes every `add_block` check. -/
def b1 : Block :=
  { parent := zeros32, slot := 1, miner := 1, transactions := [],
    vdf_proof := zeros32, zk_proof := List.replicate 128 0, nonce := 0 }

/-- The scenario chain after `add_block tc0 b1`: height 2, address 1 holds the
slot-1 reward of 5_000_000_000. -/
def tc1 : Timechain := (Timechain.add_block O0 tc0 b1 1800).2

/-- First overdraw transaction: spends 3_000_000_000 of address 1's
5_000_000_000 balance (individually valid). -/
def txSpendA : Transaction := ⟨1, 3, 3000000000, 0, 0, [], []⟩

/-- Second overdraw transaction: also spends 3_000_000_000 from address 1 at
nonce 1 (individually valid against the pre-block balance, but not after
`txSpendA` has been applied). -/
def txSpendB : Transaction := ⟨1, 3, 3000000000, 0, 1, [], []⟩

/-- Scenario block at slot 2 whose transaction list passes the per-transaction
validation of `add_block` step 5 but fails on sequential application in
step 8. -/
def b2 : Block :=
  { parent := zeros32, slot := 2, miner := 2, transactions := [txSpendA, txSpendB],
    vdf_proof := zeros32, zk_proof := List.replicate 128 0, nonce := 0 }

/-- A block that agrees with `b1` on every hashed field but carries a different
transaction list. -/
def b1tx : Block := { b1 with transactions := [txSpendA] }

/-- The S2 scenario state: `balances = {A=1: 1000}`, all nonces 0. -/
def stateS2 : State :=
  { balances := fun a => if a = 1 then 1000 else 0, total_issued := 0, nonces := fun _ => 0 }

/-- The S2 scenario transaction `tx{from=A=1, to=B=2, amount=100, fee=10, nonce=0}`. -/
def txS2 : Transaction := ⟨1, 2, 100, 10, 0, [], []⟩

/-- A transaction whose `u64` cost `amount + fee` wraps to zero. -/
def txOverflow : Transaction := ⟨1, 2, 2 ^ 64 - 1, 1, 0, [], []⟩

/-- S4 scenario transactions with fees 5, 10, 15 and 3. -/
def txFee5 : Transaction := ⟨1, 2, 100, 5, 0, [], []⟩

/-- S4 scenario transaction with fee 10. -/
def txFee10 : Transaction := ⟨1, 2, 100, 10, 1, [], []⟩

/-- S4 scenario transaction with fee 15. -/
def txFee15 : Transaction := ⟨1, 2, 100, 15, 2, [], []⟩

/-- S4 scenario transaction with fee 3. -/
def txFee3 : Transaction := ⟨1, 2, 100, 3, 3, [], []⟩

/-- The S4 capacity-2 mempool holding fees {5, 10}. -/
def mpS4 : Mempool :=
  (((Mempool.with_capacity 2 100000).add txFee5).toOption.getD Mempool.newDefault
    |>.add txFee10).toOption.getD Mempool.newDefault

/-- The S4 mempool after the fee-15 submission (holding fees {10, 15}). -/
def mpS4' : Mempool := (mpS4.add txFee15).toOption.getD Mempool.newDefault

/-- S3 scenario transaction `tx1{from=A=1, nonce=5, fee=10}`. -/
def txN1 : Transaction := ⟨1, 2, 100, 10, 5, [], []⟩

/-- S3 scenario transaction `tx2{from=A=1, nonce=5, fee=20}`, distinct from
`txN1` but with the same `(from, nonce)` pair. -/
def txN2 : Transaction := ⟨1, 3, 50, 20, 5, [], []⟩

/-- The S3 mempool after `tx1` was accepted into an empty default pool. -/
def mpS3 : Mempool := (Mempool.newDefault.add txN1).toOption.getD Mempool.newDefault

/-- C6: the mining reward function satisfies reward(0) = 5_000_000_000,
reward(1_240_000) = 2_500_000_000, reward(2_480_000) = 1_250_000_000 and
reward(64·1_240_000) = 0, and for every slot equals
`INITIAL_REWARD >> min(slot / HALVING_INTERVAL, 63)`. -/
theorem C6_mining_reward_schedule :
    get_mining_reward 0 = 5000000000 ∧
    get_mining_reward 1240000 = 2500000000 ∧
    get_mining_reward 2480000 = 1250000000 ∧
    get_mining_reward (64 * 1240000) = 0 ∧
    ∀ slot : Nat, get_mining_reward slot = INITIAL_REWARD >>> min (slot / HALVING_INTERVAL) 63 := by
  refine ⟨by decide, by decide, by decide, by decide, ?_⟩
  intro slot
  simp only [get_mining_reward]
  by_cases h : 64 ≤ slot / HALVING_INTERVAL
  · rw [if_pos h, Nat.min_eq_right (by omega)]
    decide
  · rw [if_neg h, Nat.min_eq_left (by omega)]

/-- C5 counterexample: with `amount = u64::MAX` and `fee = 1`, the `u64` cost
wraps to 0, so `apply_tx` succeeds from a zero balance even though
mathematically `balance(from) < amount + fee`; the claim's "succeeds only if
balance(from) ≥ amount + fee" is false at this input. -/
theorem C5_counterexample :
    (State.new.apply_tx txOverflow).isOk = true ∧
    State.new.balance txOverflow.from_ = 0 ∧
    txOverflow.amount + txOverflow.fee = 2 ^ 64 := by
  refine ⟨by decide, by decide, by decide⟩

/-- C5 amended: for every transaction whose `u64` cost does not overflow
(`amount + fee < 2^64`, the spec's own data-model invariant), `apply_tx`
succeeds iff `balance(from) ≥ amount + fee` and `nonce(from) = tx.nonce`; on
success it debits `from` by exactly `amount + fee`, sets `to`'s balance to
`(balance(to) + amount) mod 2^64` (a credit of exactly `amount` absent `u64`
overflow), sets `nonce(from)` to `(nonce + 1) mod 2^64`, and changes no other
balance, no other nonce and not `total_issued`; on failure it returns one of
the two typed errors and produces no state. -/
theorem C5_apply_tx_amended (s : State) (tx : Transaction)
    (hfit : tx.amount + tx.fee < U64) :
    ((s.apply_tx tx).isOk = true ↔
      tx.amount + tx.fee ≤ s.balance tx.from_ ∧ tx.nonce = s.nonce tx.from_)
  ∧ (∀ s', s.apply_tx tx = .ok s' →
      (tx.from_ ≠ tx.to_ →
        s'.balance tx.from_ = s.balance tx.from_ - (tx.amount + tx.fee) ∧
        s'.balance tx.to_ = (s.balance tx.to_ + tx.amount) % U64) ∧
      s'.nonce tx.from_ = (s.nonce tx.from_ + 1) % U64 ∧
      (∀ a, a ≠ tx.from_ → a ≠ tx.to_ → s'.balances a = s.balances a) ∧
      (∀ a, a ≠ tx.from_ → s'.nonces a = s.nonces a) ∧
      s'.total_issued = s.total_issued)
  ∧ ((s.apply_tx tx).isOk = false →
      s.apply_tx tx = .error "Insufficient balance" ∨ s.apply_tx tx = .error "Invalid nonce") := by
  have hcost : (tx.amount + tx.fee) % U64 = tx.amount + tx.fee := Nat.mod_eq_of_lt hfit
  refine ⟨?_, ?_, ?_⟩
  · simp only [State.apply_tx, hcost]
    split_ifs with h1 h2
    · simp only [Except.isOk, Except.toBool]
      constructor
      · intro h; cases h
      · intro ⟨hb, _⟩; omega
    · simp only [Except.isOk, Except.toBool]
      constructor
      · intro h; cases h
      · intro ⟨_, hn⟩; exact absurd hn h2
    · simp only [Except.isOk, Except.toBool]
      exact ⟨fun _ => ⟨by omega, by omega⟩, fun _ => trivial⟩
  · intro s' h
    simp only [State.apply_tx, hcost] at h
    split_ifs at h with h1 h2
    have hs' := Except.ok.inj h
    subst hs'
    refine ⟨?_, ?_, ?_, ?_, ?_⟩
    · intro hne
      constructor
      · simp [State.balance, State.credit, hne, Ne.symm hne]
      · simp [State.balance, State.credit, Ne.symm hne]
    · simp [State.nonce]
    · intro a ha1 ha2
      simp [State.credit, State.balance, ha1, ha2]
    · intro a ha
      simp [State.credit, ha]
    · rfl
  · simp only [State.apply_tx, hcost]
    split_ifs with h1 h2
    · exact fun _ => Or.inl rfl
    · exact fun _ => Or.inr rfl
    · intro h; simp [Except.isOk, Except.toBool] at h

/-- C5 witness: the theorem applied to the spec's S2 scenario — balances
`{A=1: 1000}`, `tx{from=1, to=2, amount=100, fee=10, nonce=0}` — succeeds and
yields balances `{1: 890, 2: 100}` and nonce 1 for the sender. -/
theorem C5_witness :
    ((stateS2.apply_tx txS2).toOption.map (fun s' => (s'.balance 1, s'.balance 2, s'.nonce 1))) =
      some (890, 100, 1)
  ∧ (stateS2.apply_tx txS2).isOk = true := by
  refine ⟨by decide, ?_⟩
  exact (C5_apply_tx_amended stateS2 txS2 (by decide)).1.mpr (by decide)

set_option maxRecDepth 100000 in
/-- C1: a concrete chain state and block for which `add_block` returns an error
(`"Transaction application failed"`) yet mutates the observable node state: the
block list grows from 2 to 3 blocks, the rejected block's mining reward is
issued (`total_issued` 5_000_000_000 → 10_000_000_000), the first transaction
of the block stays applied (balance of address 1 drops 5_000_000_000 →
2_000_000_000) and `seen_hashes` grows — the partial mutation the spec rules
out. Both overdraw transactions pass the step-5 validation (each is covered by
the pre-block balance) and the second fails only on sequential application. -/
theorem C1_failed_add_block_mutates :
    (Timechain.add_block O0 tc1 b2 1800).1 = .error "Transaction application failed"
  ∧ tc1.blocks.length = 2
  ∧ (Timechain.add_block O0 tc1 b2 1800).2.blocks.length = 3
  ∧ tc1.state.balance 1 = 5000000000
  ∧ (Timechain.add_block O0 tc1 b2 1800).2.state.balance 1 = 2000000000
  ∧ tc1.total_issued = 5000000000
  ∧ (Timechain.add_block O0 tc1 b2 1800).2.total_issued = 10000000000
  ∧ tc1.seen_hashes.length = 1
  ∧ (Timechain.add_block O0 tc1 b2 1800).2.seen_hashes.length = 2 := by
  exact ⟨rfl, rfl, rfl, rfl, rfl, rfl, rfl, rfl, rfl⟩

/-- Embedding of `adjust_difficulty` touches only the `difficulty` field. -/
theorem adjust_preserves (tc : Timechain) (el : Nat) :
    (tc.adjust_difficulty el).blocks = tc.blocks ∧
    (tc.adjust_difficulty el).seen_hashes = tc.seen_hashes ∧
    (tc.adjust_difficulty el).total_issued = tc.total_issued ∧
    (tc.adjust_difficulty el).state = tc.state := by
  unfold Timechain.adjust_difficulty
  split_ifs <;> exact ⟨rfl, rfl, rfl, rfl⟩

/-- What a successful `add_block` did to the chain: appended the block (whose
slot is the old length), recorded its digest in `seen_hashes` (which did not
contain it), and issued the reward exactly under the source's condition. -/
theorem add_block_ok_shape (O : HashOracle) (tc : Timechain) (b : Block) (el : Nat)
    (h : (Timechain.add_block O tc b el).1 = .ok ()) :
    (Timechain.add_block O tc b el).2.blocks = tc.blocks ++ [b]
  ∧ b.slot = tc.blocks.length
  ∧ (Timechain.add_block O tc b el).2.seen_hashes = hsetInsert tc.seen_hashes (b.calculate_hash O)
  ∧ (Timechain.add_block O tc b el).2.total_issued =
      (if 0 < block_reward b.slot tc.total_issued ∧ b.miner ≠ 0
        then (tc.total_issued + block_reward b.slot tc.total_issued) % U64 else tc.total_issued)
  ∧ b.calculate_hash O ∉ tc.seen_hashes := by
  simp only [Timechain.add_block] at h ⊢
  split_ifs at h ⊢ with h1 h2 h3 h4 h5 h6 h7
  all_goals try simp at h
  all_goals (
    cases hv : validateTxs tc.state b.transactions with
    | error e => simp [hv] at h
    | ok u =>
      simp only [hv] at h ⊢
      try simp at h
      first
      | done
      | (split at h
         all_goals try simp at h
         all_goals (
           rename_i st heq
           simp only [heq]
           refine ⟨?_, by omega, ?_, ?_, h1⟩
           · rw [(adjust_preserves _ el).1]
           · rw [(adjust_preserves _ el).2.1]
           · rw [(adjust_preserves _ el).2.2.1])))

/-- C10: two blocks that agree on parent, slot, miner, vdf_proof, zk_proof and
nonce have the same `calculate_hash` digest whatever their transaction lists
are (the byte stream fed to SHA-256 omits the transactions), and once
`add_block` has accepted one of them, it rejects the other as a duplicate. -/
theorem C10_digest_ignores_transactions (O : HashOracle) (b b' : Block)
    (hp : b'.parent = b.parent) (hs : b'.slot = b.slot) (hm : b'.miner = b.miner)
    (hv : b'.vdf_proof = b.vdf_proof) (hz : b'.zk_proof = b.zk_proof) (hn : b'.nonce = b.nonce) :
    b'.calculate_hash O = b.calculate_hash O
  ∧ ∀ tc el, (Timechain.add_block O tc b el).1 = .ok () →
      ∀ el', (Timechain.add_block O (Timechain.add_block O tc b el).2 b' el').1 =
        .error "Block already exists (Injection Attack thwarted)" := by
  have hcalc : b'.calculate_hash O = b.calculate_hash O := by
    unfold Block.calculate_hash Block.calcHashBytes
    rw [hp, hs, hm, hv, hz, hn]
  refine ⟨hcalc, ?_⟩
  intro tc el hok el'
  have hshape := add_block_ok_shape O tc b el hok
  set tc2 := (Timechain.add_block O tc b el).2 with htc2
  have hmem : b'.calculate_hash O ∈ tc2.seen_hashes := by
    rw [hcalc, hshape.2.2.1]
    unfold hsetInsert
    split_ifs with hi
    · exact hi
    · exact List.mem_cons_self _ _
  simp only [Timechain.add_block]
  rw [if_pos hmem]

set_option maxRecDepth 100000 in
/-- C10 witness: under the concrete oracle `O0`, the chain accepts block `b1`
(empty transaction list) at slot 1 and then rejects `b1tx` — identical to `b1`
except for a nonempty transaction list — as a duplicate. -/
theorem C10_witness :
    (Timechain.add_block O0 (Timechain.add_block O0 tc0 b1 1800).2 b1tx 900).1 =
      .error "Block already exists (Injection Attack thwarted)" :=
  (C10_digest_ignores_transactions O0 b1 b1tx rfl rfl rfl rfl rfl rfl).2 tc0 1800 rfl 900

/-- The index insertions of `add` record the new transaction's nullifier. -/
theorem insertIndexes_nullifier_mem (mp : Mempool) (tx : Transaction) :
    (tx.from_, tx.nonce) ∈ (mp.insertIndexes tx).nullifiers := by
  simp only [Mempool.insertIndexes]
  split_ifs with h
  · exact h
  · exact List.mem_cons_self _ _

/-- Everything in the pool after the index insertions was there before or is
the inserted transaction. -/
theorem insertIndexes_transactions_sub (mp : Mempool) (tx u : Transaction)
    (h : u ∈ (mp.insertIndexes tx).transactions) : u ∈ mp.transactions ∨ u = tx := by
  simp only [Mempool.insertIndexes] at h
  split_ifs at h with h1
  · exact Or.inl h
  · rcases List.mem_append.mp h with h2 | h2
    · exact Or.inl h2
    · exact Or.inr (List.mem_singleton.mp h2)

/-- Eviction only removes transactions. -/
theorem evict_transactions_sub (mp : Mempool) (u : Transaction)
    (h : u ∈ (mp.evict_lowest_fee).transactions) : u ∈ mp.transactions := by
  unfold Mempool.evict_lowest_fee at h
  split at h
  · rename_i lf tx bucket heq
    unfold Mempool.remove at h
    split_ifs at h with hmem
    · exact List.mem_of_mem_erase h
    · exact h
  · exact h

/-- Eviction only removes nullifiers. -/
theorem evict_nullifiers_sub (mp : Mempool) (p : Address × Nat)
    (h : p ∈ (mp.evict_lowest_fee).nullifiers) : p ∈ mp.nullifiers := by
  unfold Mempool.evict_lowest_fee at h
  split at h
  · rename_i lf tx bucket heq
    unfold Mempool.remove at h
    split_ifs at h with hmem
    · exact List.mem_of_mem_erase h
    · exact h
  · exact h

/-- Eviction does not change the pool's capacity parameters. -/
theorem evict_capacity (mp : Mempool) :
    (mp.evict_lowest_fee).max_size = mp.max_size ∧
    (mp.evict_lowest_fee).max_tx_size = mp.max_tx_size := by
  unfold Mempool.evict_lowest_fee
  split
  · rename_i lf tx bucket heq
    unfold Mempool.remove
    split_ifs <;> exact ⟨rfl, rfl⟩
  · exact ⟨rfl, rfl⟩

/-- What a successful `Mempool::add` presupposed and produced: the transaction
was not a duplicate, its nullifier was fresh, and the result is the index
insertion into either the old pool or the pool after one eviction; the
capacity parameters are unchanged. -/
theorem add_ok_parts (mp : Mempool) (tx : Transaction) (mp' : Mempool)
    (h : mp.add tx = .ok mp') :
    tx ∉ mp.transactions ∧ (tx.from_, tx.nonce) ∉ mp.nullifiers ∧
    (mp' = mp.insertIndexes tx ∨ mp' = (mp.evict_lowest_fee).insertIndexes tx) ∧
    mp'.max_size = mp.max_size ∧ mp'.max_tx_size = mp.max_tx_size := by
  simp only [Mempool.add] at h
  split_ifs at h with h1 h2 h3 h4
  · split at h
    · rename_i lf bucket heq
      split_ifs at h with h5
      obtain rfl := Except.ok.inj h
      exact ⟨h2, h3, Or.inr rfl, (evict_capacity mp).1, (evict_capacity mp).2⟩
    · obtain rfl := Except.ok.inj h
      exact ⟨h2, h3, Or.inl rfl, rfl, rfl⟩
  · obtain rfl := Except.ok.inj h
    exact ⟨h2, h3, Or.inl rfl, rfl, rfl⟩

/-- C9: whenever `add` has accepted `tx1` into a well-indexed pool (every
pooled transaction's nullifier is recorded), a distinct, size-admissible `tx2`
with the same `(from, nonce)` pair is rejected with `NullifierUsed` — the
deterministic first-wins semantics; the error is raised before any mutation,
so the pool is unchanged. -/
theorem C9_nullifier_first_wins (mp mp1 : Mempool) (tx1 tx2 : Transaction)
    (hwf : ∀ u ∈ mp.transactions, (u.from_, u.nonce) ∈ mp.nullifiers)
    (h1 : mp.add tx1 = .ok mp1)
    (hne : tx2 ≠ tx1)
    (hfrom : tx2.from_ = tx1.from_) (hnonce : tx2.nonce = tx1.nonce)
    (hsize : txSize tx2 ≤ mp.max_tx_size) :
    mp1.add tx2 = .error AxmError.NullifierUsed := by
  obtain ⟨hdup1, hnul1, hshape, hms, hmts⟩ := add_ok_parts mp tx1 mp1 h1
  have hnul2 : (tx2.from_, tx2.nonce) ∈ mp1.nullifiers := by
    rw [hfrom, hnonce]
    rcases hshape with rfl | rfl
    · exact insertIndexes_nullifier_mem mp tx1
    · exact insertIndexes_nullifier_mem mp.evict_lowest_fee tx1
  have hdup2 : tx2 ∉ mp1.transactions := by
    intro hmem
    have : tx2 ∈ mp.transactions ∨ tx2 = tx1 := by
      rcases hshape with rfl | rfl
      · exact insertIndexes_transactions_sub mp tx1 tx2 hmem
      · rcases insertIndexes_transactions_sub mp.evict_lowest_fee tx1 tx2 hmem with h' | h'
        · exact Or.inl (evict_transactions_sub mp tx2 h')
        · exact Or.inr h'
    rcases this with h' | h'
    · have := hwf tx2 h'
      rw [hfrom, hnonce] at this
      exact hnul1 this
    · exact hne h'
  unfold Mempool.add
  rw [if_neg (by omega : ¬ txSize tx2 > mp1.max_tx_size), if_neg hdup2, if_pos hnul2]

/-- C9 witness: the theorem applied to the S3 scenario — an empty default pool
accepts `tx1{from=1, nonce=5, fee=10}` and then rejects
`tx2{from=1, to=3, amount=50, fee=20, nonce=5}` with `NullifierUsed`. -/
theorem C9_witness : mpS3.add txN2 = .error AxmError.NullifierUsed := by
  refine C9_nullifier_first_wins Mempool.newDefault mpS3 txN1 txN2 ?_ rfl (by decide) rfl rfl
    (by decide)
  intro u hu
  simp [Mempool.newDefault, Mempool.with_capacity] at hu

/-- C8: on a full pool (`len = max_size`, duplicate-free keys) holding the
lowest-fee bucket `(lf, e :: bucket)`, a size-admissible, non-duplicate,
fresh-nullifier submission is rejected with `FeeTooLow` when its fee is at most
`lf` (leaving the pool unchanged, since the error precedes every mutation), and
otherwise is accepted after evicting exactly one transaction — the element `e`
drawn from the lowest-fee bucket: the pool keeps its size, gains `tx`, loses
`e` and keeps everything else. -/
theorem C8_full_pool_eviction (mp : Mempool) (tx : Transaction) (lf : Nat)
    (e : Transaction) (bucket : List Transaction)
    (hfull : mp.transactions.length = mp.max_size)
    (hsize : txSize tx ≤ mp.max_tx_size)
    (hdup : tx ∉ mp.transactions)
    (hnul : (tx.from_, tx.nonce) ∉ mp.nullifiers)
    (hhead : mp.by_fee.head? = some (lf, e :: bucket))
    (hmem : e ∈ mp.transactions)
    (hnodup : mp.transactions.Nodup) :
    (tx.fee ≤ lf → mp.add tx = .error (.FeeTooLow (lf + 1) tx.fee))
  ∧ (lf < tx.fee →
      mp.add tx = .ok ((mp.evict_lowest_fee).insertIndexes tx) ∧
      ((mp.evict_lowest_fee).insertIndexes tx).transactions.length = mp.max_size ∧
      tx ∈ ((mp.evict_lowest_fee).insertIndexes tx).transactions ∧
      e ∉ ((mp.evict_lowest_fee).insertIndexes tx).transactions ∧
      ∀ u ∈ mp.transactions, u ≠ e → u ∈ ((mp.evict_lowest_fee).insertIndexes tx).transactions) := by
  have hne : e ≠ tx := fun hh => hdup (hh ▸ hmem)
  have hev : mp.evict_lowest_fee = (mp.remove e).2 := by
    unfold Mempool.evict_lowest_fee
    rw [hhead]
  have hevtx : (mp.evict_lowest_fee).transactions = mp.transactions.erase e := by
    rw [hev]
    unfold Mempool.remove
    rw [if_pos hmem]
  have hins : ((mp.evict_lowest_fee).insertIndexes tx).transactions =
      mp.transactions.erase e ++ [tx] := by
    simp only [Mempool.insertIndexes, hevtx]
    rw [if_neg (fun hh => hdup (List.mem_of_mem_erase hh))]
  constructor
  · intro hle
    simp only [Mempool.add]
    rw [if_neg (by omega : ¬ txSize tx > mp.max_tx_size), if_neg hdup, if_neg hnul,
      if_pos (by omega : mp.transactions.length ≥ mp.max_size)]
    simp only [hhead]
    rw [if_pos hle]
  · intro hgt
    refine ⟨?_, ?_, ?_, ?_, ?_⟩
    · simp only [Mempool.add]
      rw [if_neg (by omega : ¬ txSize tx > mp.max_tx_size), if_neg hdup, if_neg hnul,
        if_pos (by omega : mp.transactions.length ≥ mp.max_size)]
      simp only [hhead]
      rw [if_neg (by omega : ¬ tx.fee ≤ lf)]
    · rw [hins]
      have h1 : (mp.transactions.erase e).length = mp.transactions.length - 1 :=
        List.length_erase_of_mem hmem
      have h2 : 1 ≤ mp.transactions.length := List.length_pos.mpr (by intro hq; simp [hq] at hmem)
      simp only [List.length_append, List.length_singleton, h1]
      omega
    · rw [hins]
      exact List.mem_append.mpr (Or.inr (List.mem_singleton.mpr rfl))
    · rw [hins]
      intro hq
      rcases List.mem_append.mp hq with hq' | hq'
      · exact ((hnodup.mem_erase_iff).mp hq').1 rfl
      · exact hne (List.mem_singleton.mp hq')
    · intro u hu hune
      rw [hins]
      exact List.mem_append.mpr (Or.inl ((hnodup.mem_erase_iff).mpr ⟨hune, hu⟩))

/-- C8 witness: the theorem applied to the S4 scenario — the capacity-2 pool
holding fees {5, 10} accepts `tx{fee=15}`, afterwards holding exactly the fees
{10, 15}, and the pool holding {10, 15} rejects `tx{fee=3}` with
`FeeTooLow{min: 11, actual: 3}`. -/
theorem C8_witness :
    ((mpS4.add txFee15).toOption.map (fun m => m.transactions.map Transaction.fee)) =
      some [10, 15]
  ∧ mpS4'.add txFee3 = .error (.FeeTooLow 11 3) := by
  constructor
  · have h := (C8_full_pool_eviction mpS4 txFee15 5 txFee5 [] (by decide) (by decide)
      (by decide) (by decide) (by decide) (by decide) (by decide)).2 (by decide)
    rw [h.1]
    decide
  · exact (C8_full_pool_eviction mpS4' txFee3 10 txFee10 [] (by decide) (by decide)
      (by decide) (by decide) (by decide) (by decide) (by decide)).1 (by decide)

/-- Folding bytes big-endian from accumulator `a` factors through the empty
accumulator. -/
theorem foldlBytes_acc (l : List Nat) : ∀ a : Nat,
    l.foldl (fun acc x => acc * 256 + x) a =
      a * 256 ^ l.length + l.foldl (fun acc x => acc * 256 + x) 0 := by
  induction l with
  | nil => intro a; simp
  | cons x t ih =>
    intro a
    simp only [List.foldl_cons, List.length_cons]
    rw [ih (a * 256 + x), ih (0 * 256 + x)]
    ring

/-- A big-endian byte fold is bounded by `256 ^ length`. -/
theorem foldlBytes_lt (l : List Nat) (hb : ∀ x ∈ l, x < 256) :
    l.foldl (fun acc x => acc * 256 + x) 0 < 256 ^ l.length := by
  induction l with
  | nil => simp
  | cons x t ih =>
    simp only [List.foldl_cons, List.length_cons]
    rw [foldlBytes_acc]
    have hxx : x < 256 := hb x (List.mem_cons_self _ _)
    have ht := ih (fun y hy => hb y (List.mem_cons_of_mem _ hy))
    calc (0 * 256 + x) * 256 ^ t.length + t.foldl (fun acc y => acc * 256 + y) 0
        < (0 * 256 + x) * 256 ^ t.length + 256 ^ t.length := Nat.add_lt_add_left ht _
      _ = (x + 1) * 256 ^ t.length := by ring
      _ ≤ 256 * 256 ^ t.length := Nat.mul_le_mul_right _ (by omega)
      _ = 256 ^ (t.length + 1) := by ring

/-- C2 counterexample: at difficulty 1 the spec's target rule accepts every
digest (target `2^256 - 1`), but the code rejects a digest of 32 `0xff` bytes,
because `Block::meets_difficulty` compares only the first 8 bytes as a `u64`
strictly against `u64::MAX / difficulty` — so the claimed "if and only if"
fails at this input. -/
theorem C2_counterexample :
    specMeetsDifficulty (genesisBlock.hash Off) 1 = true ∧
    Block.meets_difficulty Off genesisBlock 1 = false := by
  exact ⟨by decide, by decide⟩

/-- C2 amended: for every difficulty `d ≥ 1` and every well-formed 32-byte
digest, `Block::meets_difficulty` returns true iff the *first 8 bytes* of the
digest, read as a big-endian `u64`, are *strictly* below `(2^64 - 1) / d` —
a check strictly stronger than the spec's rule: every block it accepts also
satisfies "digest as a 256-bit big-endian integer ≤ (2^256 - 1) / d", but not
conversely. -/
theorem C2_meets_difficulty_amended (O : HashOracle) (b : Block) (d : Nat)
    (hlen : (b.hash O).length = 32)
    (hbytes : ∀ x ∈ b.hash O, x < 256)
    (hd : 1 ≤ d) :
    (Block.meets_difficulty O b d = true ↔ first8BE (b.hash O) < (2 ^ 64 - 1) / d)
  ∧ (Block.meets_difficulty O b d = true → specMeetsDifficulty (b.hash O) d = true) := by
  have hiff : Block.meets_difficulty O b d = true ↔ first8BE (b.hash O) < (2 ^ 64 - 1) / d := by
    unfold Block.meets_difficulty meetsDifficultyVal
    rw [Nat.max_eq_left hd]
    simp [U64MAX]
  refine ⟨hiff, ?_⟩
  intro hm
  have h8 : first8BE (b.hash O) < (2 ^ 64 - 1) / d := hiff.mp hm
  set h := b.hash O with hdef
  have hld : (h.drop 8).length = 24 := by rw [List.length_drop, hlen]
  have hval : h.foldl (fun acc x => acc * 256 + x) 0 =
      first8BE h * 256 ^ 24 + (h.drop 8).foldl (fun acc x => acc * 256 + x) 0 := by
    conv_lhs => rw [(List.take_append_drop 8 h).symm]
    rw [List.foldl_append, foldlBytes_acc, hld]
    rfl
  have hrest : (h.drop 8).foldl (fun acc x => acc * 256 + x) 0 < 256 ^ 24 := by
    rw [← hld]
    exact foldlBytes_lt _ (fun x hx => hbytes x (List.drop_subset _ _ hx))
  have hp : (256 : Nat) ^ 24 = 2 ^ 192 := by norm_num
  have hchain : h.foldl (fun acc x => acc * 256 + x) 0 ≤ (2 ^ 256 - 1) / d := by
    have h1 : first8BE h + 1 ≤ (2 ^ 64 - 1) / d := h8
    have h2 : h.foldl (fun acc x => acc * 256 + x) 0 < (first8BE h + 1) * 2 ^ 192 := by
      rw [hval, hp]
      calc first8BE h * 2 ^ 192 + (h.drop 8).foldl (fun acc x => acc * 256 + x) 0
          < first8BE h * 2 ^ 192 + 2 ^ 192 := Nat.add_lt_add_left (hp ▸ hrest) _
        _ = (first8BE h + 1) * 2 ^ 192 := by ring
    have h3 : (first8BE h + 1) * 2 ^ 192 ≤ ((2 ^ 64 - 1) / d) * 2 ^ 192 :=
      Nat.mul_le_mul_right _ h1
    have h4 : ((2 ^ 64 - 1) / d) * 2 ^ 192 ≤ ((2 ^ 64 - 1) * 2 ^ 192) / d := by
      rw [Nat.le_div_iff_mul_le (by omega : 0 < d)]
      calc (2 ^ 64 - 1) / d * 2 ^ 192 * d = (2 ^ 64 - 1) / d * d * 2 ^ 192 := by ring
        _ ≤ (2 ^ 64 - 1) * 2 ^ 192 := Nat.mul_le_mul_right _ (Nat.div_mul_le_self _ _)
    have h5 : ((2 ^ 64 - 1) * 2 ^ 192) / d ≤ (2 ^ 256 - 1) / d :=
      Nat.div_le_div_right (by norm_num)
    omega
  simp only [specMeetsDifficulty, decide_eq_true_eq]
  exact hchain

/-- C2 witness: the theorem applied to the all-zero digest at difficulty 1000 —
the code accepts it and the spec's target rule then also holds. -/
theorem C2_witness :
    Block.meets_difficulty O0 genesisBlock 1000 = true
  ∧ specMeetsDifficulty (genesisBlock.hash O0) 1000 = true := by
  have h := C2_meets_difficulty_amended O0 genesisBlock 1000 (by decide) (by decide) (by decide)
  have h1 : Block.meets_difficulty O0 genesisBlock 1000 = true := h.1.mpr (by decide)
  exact ⟨h1, h.2 h1⟩

/-- The iterated-halving sum never exceeds twice its head. -/
theorem geomSum_le (k : Nat) : ∀ c, geomSum c k ≤ 2 * c := by
  induction k with
  | zero => intro c; simp [geomSum]
  | succ k ih =>
    intro c
    simp only [geomSum]
    have h1 := ih (c / 2)
    have h2 : c / 2 * 2 ≤ c := Nat.div_mul_le_self c 2
    omega

/-- Rear-recursion form of `geomSum`: the iterated halving `c/2/…/2` (`k`
times) is exactly `c / 2^k`. -/
theorem geomSum_succ_last (k : Nat) : ∀ c, geomSum c (k + 1) = geomSum c k + c / 2 ^ k := by
  induction k with
  | zero => intro c; simp [geomSum]
  | succ k ih =>
    intro c
    have h1 : geomSum c (k + 2) = c + geomSum (c / 2) (k + 1) := rfl
    have h2 : geomSum c (k + 1) = c + geomSum (c / 2) k := rfl
    rw [h1, h2, ih (c / 2), Nat.div_div_eq_div_mul]
    have h3 : 2 * 2 ^ k = 2 ^ (k + 1) := by rw [Nat.pow_succ]; ring
    rw [h3]
    omega

/-- Embedding of `get_mining_reward` is dominated by the iterated halving of
`INITIAL_REWARD`. -/
theorem reward_le_halving (n : Nat) :
    get_mining_reward n ≤ INITIAL_REWARD / 2 ^ (n / HALVING_INTERVAL) := by
  simp only [get_mining_reward]
  split_ifs with h
  · exact Nat.zero_le _
  · rw [Nat.shiftRight_eq_div_pow]

/-- Embedding of `rewardTotal` unrolled by one slot. -/
theorem rewardTotal_succ (n : Nat) :
    rewardTotal (n + 1) = rewardTotal n + get_mining_reward n := by
  simp [rewardTotal, List.range_succ]

/-- A per-era bound for sums of era-decaying slot functions: each era
contributes at most `H` full terms of its halving level. -/
theorem slotSum_bound (H : Nat) (hH : 0 < H) (f : Nat → Nat) (c : Nat)
    (hf : ∀ n, f n ≤ c / 2 ^ (n / H)) :
    ∀ n, ((List.range n).map f).sum ≤
      H * geomSum c (n / H) + (n % H) * (c / 2 ^ (n / H)) := by
  intro n
  induction n with
  | zero => simp
  | succ n ih =>
    have hsum : ((List.range (n + 1)).map f).sum = ((List.range n).map f).sum + f n := by
      simp [List.range_succ]
    have hmlt : n % H < H := Nat.mod_lt n hH
    have hdm := Nat.div_add_mod n H
    by_cases hcase : n % H + 1 < H
    · have hd : (n + 1) / H = n / H := by
        conv_lhs => rw [show n + 1 = (n % H + 1) + (n / H) * H by rw [Nat.mul_comm (n / H) H]; omega]
        rw [Nat.add_mul_div_right _ _ hH, Nat.div_eq_of_lt hcase]
        omega
      have hm : (n + 1) % H = n % H + 1 := by
        conv_lhs => rw [show n + 1 = (n % H + 1) + (n / H) * H by rw [Nat.mul_comm (n / H) H]; omega]
        rw [Nat.add_mul_mod_self_right, Nat.mod_eq_of_lt hcase]
      rw [hsum, hd, hm, Nat.succ_mul]
      have hfn := hf n
      omega
    · have hHeq : n % H + 1 = H := by omega
      have hd : (n + 1) / H = n / H + 1 := by
        conv_lhs => rw [show n + 1 = H * (n / H + 1) by rw [Nat.mul_add, Nat.mul_one]; omega]
        rw [Nat.mul_div_cancel_left _ hH]
      have hm : (n + 1) % H = 0 := by
        conv_lhs => rw [show n + 1 = H * (n / H + 1) by rw [Nat.mul_add, Nat.mul_one]; omega]
        exact Nat.mul_mod_right H _
      rw [hsum, hd, hm, geomSum_succ_last]
      have hfn := hf n
      have hiter : (n % H) * (c / 2 ^ (n / H)) + c / 2 ^ (n / H) = H * (c / 2 ^ (n / H)) := by
        rw [← Nat.succ_mul, Nat.succ_eq_add_one, hHeq]
      have hmul : H * (geomSum c (n / H) + c / 2 ^ (n / H)) =
          H * geomSum c (n / H) + H * (c / 2 ^ (n / H)) := Nat.mul_add H _ _
      omega

/-- Total issuance over any slot range is bounded well below every relevant
cap: `rewardTotal n ≤ 3 · HALVING_INTERVAL · INITIAL_REWARD`. -/
theorem rewardTotal_le (n : Nat) : rewardTotal n ≤ 18600000000000000 := by
  have h := slotSum_bound HALVING_INTERVAL (by decide) get_mining_reward INITIAL_REWARD
    reward_le_halving n
  have h1 : geomSum INITIAL_REWARD (n / HALVING_INTERVAL) ≤ 2 * INITIAL_REWARD :=
    geomSum_le _ _
  have h2 : (n % HALVING_INTERVAL) * (INITIAL_REWARD / 2 ^ (n / HALVING_INTERVAL)) ≤
      HALVING_INTERVAL * INITIAL_REWARD := by
    apply Nat.mul_le_mul
    · exact Nat.le_of_lt (Nat.mod_lt n (by decide))
    · exact Nat.div_le_self _ _
  have h3 : HALVING_INTERVAL * (2 * INITIAL_REWARD) + HALVING_INTERVAL * INITIAL_REWARD =
      18600000000000000 := by decide
  calc rewardTotal n
      ≤ HALVING_INTERVAL * geomSum INITIAL_REWARD (n / HALVING_INTERVAL) +
        (n % HALVING_INTERVAL) * (INITIAL_REWARD / 2 ^ (n / HALVING_INTERVAL)) := h
    _ ≤ HALVING_INTERVAL * (2 * INITIAL_REWARD) + HALVING_INTERVAL * INITIAL_REWARD := by
        have := Nat.mul_le_mul_left HALVING_INTERVAL h1
        omega
    _ = 18600000000000000 := h3

/-- Embedding of `minerRewardSum` unrolled at a snoc. -/
theorem minerRewardSum_append (bs : List Block) (b : Block) :
    minerRewardSum (bs ++ [b]) = minerRewardSum bs +
      (if 0 < get_mining_reward b.slot ∧ b.miner ≠ 0 then get_mining_reward b.slot else 0) := by
  simp [minerRewardSum]

/-- Embedding of `minerRewardSum` is dominated slotwise by the full reward. -/
theorem mrs_le_slotsum (bs : List Block) :
    minerRewardSum bs ≤ ((bs.map Block.slot).map get_mining_reward).sum := by
  induction bs with
  | nil => simp [minerRewardSum]
  | cons b t ih =>
    simp only [minerRewardSum, List.map_cons, List.sum_cons] at ih ⊢
    have hb : (if 0 < get_mining_reward b.slot ∧ b.miner ≠ 0
        then get_mining_reward b.slot else 0) ≤ get_mining_reward b.slot := by
      split_ifs <;> omega
    omega

/-- On a chain whose slots are exactly `0, …, n-1`, the issued rewards are
bounded by the slot-range total. -/
theorem minerRewardSum_le (bs : List Block)
    (h : bs.map Block.slot = List.range bs.length) :
    minerRewardSum bs ≤ rewardTotal bs.length := by
  have := mrs_le_slotsum bs
  rw [h] at this
  exact this

/-- What `Timechain::new` built on the genesis block. -/
theorem timechain_new_shape (O : HashOracle) (tc : Timechain)
    (h : Timechain.new O genesisBlock = some tc) :
    tc.blocks = [genesisBlock] ∧ tc.total_issued = 0 ∧ tc.difficulty = 1000 ∧
    tc.seen_hashes = [] := by
  unfold Timechain.new at h
  split_ifs at h with h1
  obtain rfl := Option.some.inj h
  refine ⟨rfl, ?_, rfl, rfl⟩
  decide

/-- The invariant of every reachable chain: `total_issued` accounts exactly
for the credited rewards, slots are the positions, and the chain starts at the
genesis block. -/
theorem reachable_facts (O : HashOracle) (tc : Timechain) (h : Reachable O tc) :
    tc.total_issued = minerRewardSum tc.blocks
  ∧ tc.blocks.map Block.slot = List.range tc.blocks.length
  ∧ tc.blocks.head? = some genesisBlock := by
  induction h with
  | genesis tc hnew =>
    obtain ⟨hb, ht, _, _⟩ := timechain_new_shape O tc hnew
    rw [hb, ht]
    exact ⟨by decide, by decide, rfl⟩
  | step tc b el tc' hr hstep ih =>
    obtain ⟨iht, ihs, ihh⟩ := ih
    have h1 : (Timechain.add_block O tc b el).1 = .ok () := by rw [hstep]
    have hshape := add_block_ok_shape O tc b el h1
    have htc' : tc' = (Timechain.add_block O tc b el).2 := by rw [hstep]
    obtain ⟨hbl, hslot, _, hti, _⟩ := hshape
    rw [htc', hbl]
    have hlen : (tc.blocks ++ [b]).length = tc.blocks.length + 1 := by simp
    have hslots : (tc.blocks ++ [b]).map Block.slot = List.range (tc.blocks.length + 1) := by
      rw [List.map_append, ihs]
      simp only [List.map_cons, List.map_nil]
      rw [hslot, List.range_succ]
    have hmrs : minerRewardSum (tc.blocks ++ [b]) < U64 := by
      have hb1 := minerRewardSum_le (tc.blocks ++ [b]) (hlen ▸ hslots)
      have hb2 := rewardTotal_le (tc.blocks ++ [b]).length
      simp only [U64]
      omega
    refine ⟨?_, hlen ▸ hslots, ?_⟩
    · rw [hti, minerRewardSum_append]
      simp only [block_reward] at *
      split_ifs with hc
    <;> rw [← iht]
      · rw [minerRewardSum_append, if_pos hc, ← iht] at hmrs
        exact Nat.mod_eq_of_lt hmrs
      · omega
    · cases hx : tc.blocks with
      | nil => rw [hx] at ihh; cases ihh
      | cons hd tl =>
        rw [hx] at ihh
        simpa using ihh

/-- The `total_issued` component of the `rebuild_state` fold ignores the state
component. -/
theorem rebuild_ti_proj (bs : List Block) : ∀ s ti,
    (bs.foldl rebuildStep (s, ti)).2 =
      bs.foldl (fun acc b =>
        if 0 < get_mining_reward b.slot ∧ b.miner ≠ 0
        then (acc + get_mining_reward b.slot) % U64 else acc) ti := by
  induction bs with
  | nil => intro s ti; rfl
  | cons b t ih =>
    intro s ti
    simp only [List.foldl_cons, rebuildStep, block_reward]
    split_ifs with hc
    · exact ih _ _
    · exact ih _ _

/-- When the accumulated issuance stays below `2^64`, the wrapping
`total_issued` fold is a plain sum. -/
theorem fold_ti_no_wrap (bs : List Block) : ∀ ti, ti + minerRewardSum bs < U64 →
    bs.foldl (fun acc b =>
      if 0 < get_mining_reward b.slot ∧ b.miner ≠ 0
      then (acc + get_mining_reward b.slot) % U64 else acc) ti = ti + minerRewardSum bs := by
  induction bs with
  | nil => intro ti h; simp [minerRewardSum]
  | cons b t ih =>
    intro ti h
    have hm : minerRewardSum (b :: t) =
        (if 0 < get_mining_reward b.slot ∧ b.miner ≠ 0 then get_mining_reward b.slot else 0) +
          minerRewardSum t := by
      simp [minerRewardSum]
    simp only [List.foldl_cons]
    split_ifs with hc
    · rw [hm, if_pos hc] at h
      rw [Nat.mod_eq_of_lt (by omega)]
      rw [ih (ti + get_mining_reward b.slot) (by omega), hm, if_pos hc]
      ring
    · rw [hm, if_neg hc] at h
      rw [ih ti (by omega), hm, if_neg hc]
      omega

/-- C4: on every chain built from genesis by successful `add_block` calls,
`total_issued` equals the sum of `block_reward(slot)` over exactly the blocks
with a nonzero miner and a positive reward, never exceeds `TOTAL_SUPPLY`, is
reproduced identically by `rebuild_state`, and a step adds a mining credit
only if the miner is nonzero and `total_issued + reward ≤ TOTAL_SUPPLY`. -/
theorem C4_total_issued_invariant (O : HashOracle) (tc : Timechain) (h : Reachable O tc) :
    tc.total_issued = minerRewardSum tc.blocks
  ∧ tc.total_issued ≤ TOTAL_SUPPLY
  ∧ (tc.rebuild_state).total_issued = tc.total_issued
  ∧ (∀ b el tc', Timechain.add_block O tc b el = (.ok (), tc') →
      tc'.total_issued ≠ tc.total_issued →
      b.miner ≠ 0 ∧ 0 < get_mining_reward b.slot ∧
        tc.total_issued + get_mining_reward b.slot ≤ TOTAL_SUPPLY) := by
  obtain ⟨hti, hslots, hhead⟩ := reachable_facts O tc h
  have hb1 := minerRewardSum_le tc.blocks hslots
  have hb2 := rewardTotal_le tc.blocks.length
  refine ⟨hti, ?_, ?_, ?_⟩
  · rw [hti]
    simp only [TOTAL_SUPPLY]
    omega
  · unfold Timechain.rebuild_state
    simp only
    rw [rebuild_ti_proj, fold_ti_no_wrap tc.blocks 0 (by simp only [U64]; omega), hti]
    omega
  · intro b el tc' hstep hne
    have h1 : (Timechain.add_block O tc b el).1 = .ok () := by rw [hstep]
    obtain ⟨hbl, hslot, _, htis, _⟩ := add_block_ok_shape O tc b el h1
    have htc' : tc' = (Timechain.add_block O tc b el).2 := by rw [hstep]
    rw [htc', htis] at hne
    simp only [block_reward] at hne
    split_ifs at hne with hc
    · have hlen : (tc.blocks ++ [b]).length = tc.blocks.length + 1 := by simp
      have hslots' : (tc.blocks ++ [b]).map Block.slot = List.range (tc.blocks.length + 1) := by
        rw [List.map_append, hslots]
        simp only [List.map_cons, List.map_nil]
        rw [hslot, List.range_succ]
      have hb3 := minerRewardSum_le (tc.blocks ++ [b]) (hlen ▸ hslots')
      have hb4 := rewardTotal_le (tc.blocks ++ [b]).length
      rw [minerRewardSum_append, if_pos hc, ← hti] at hb3
      refine ⟨hc.2, hc.1, ?_⟩
      simp only [TOTAL_SUPPLY]
      omega
    · exact absurd rfl hne

set_option maxRecDepth 100000 in
/-- Embedding of `Timechain::new` on the scenario oracle accepts the genesis anchor. -/
theorem new_O0_eq : Timechain.new O0 genesisBlock = some tc0 := by
  unfold Timechain.new
  rw [if_pos (by decide)]
  rfl

set_option maxRecDepth 100000 in
/-- The scenario chain `tc1` (genesis plus mined block `b1`) is reachable. -/
theorem reachable_tc1 : Reachable O0 tc1 := by
  refine Reachable.step tc0 b1 1800 tc1 (Reachable.genesis tc0 new_O0_eq) ?_
  have he : Timechain.add_block O0 tc0 b1 1800 =
      ((Timechain.add_block O0 tc0 b1 1800).1, (Timechain.add_block O0 tc0 b1 1800).2) := rfl
  rw [he]
  exact congrArg (fun x => (x, tc1)) (rfl : (Timechain.add_block O0 tc0 b1 1800).1 = .ok ())

set_option maxRecDepth 100000 in
/-- C4 witness: the theorem applied to the concrete reachable chain `tc1`,
whose `total_issued` of 5_000_000_000 equals the credited reward sum and is
below the supply cap. -/
theorem C4_witness :
    tc1.total_issued = minerRewardSum tc1.blocks
  ∧ tc1.total_issued ≤ TOTAL_SUPPLY
  ∧ tc1.total_issued = 5000000000 := by
  have h := C4_total_issued_invariant O0 tc1 reachable_tc1
  exact ⟨h.1, h.2.1, rfl⟩

/-- The replay loop of chain sync appends exactly the replayed blocks. -/
theorem syncReplay_blocks (O : HashOracle) (bs : List Block) : ∀ tc tc',
    syncReplay O tc bs = some tc' → tc'.blocks = tc.blocks ++ bs := by
  induction bs with
  | nil =>
    intro tc tc' h
    simp only [syncReplay] at h
    obtain rfl := Option.some.inj h
    simp
  | cons b t ih =>
    intro tc tc' h
    simp only [syncReplay] at h
    cases ha : Timechain.add_block O tc b 1800 with
    | mk fst snd =>
      rw [ha] at h
      cases fst with
      | error e => simp at h
      | ok u =>
        cases u
        simp only at h
        have h1 : (Timechain.add_block O tc b 1800).1 = .ok () := by rw [ha]
        have hbl := (add_block_ok_shape O tc b 1800 h1).1
        have hsnd : snd = (Timechain.add_block O tc b 1800).2 := by rw [ha]
        rw [ih snd tc' h, hsnd, hbl]
        simp

/-- C3: a received peer chain is adopted iff its first block hashes like the
local chain's genesis block, all its later blocks replay through full
`add_block` validation in order (from a fresh genesis chain, with
`elapsed = 1800`), and it beats the local chain on length or on cumulative
work `Σ max(nonce, 1)`; in particular a peer chain equal to the local one is
never adopted. `hinj` is collision-freeness of the block hash at the genesis
comparison; `hbase` says the node's hard-coded anchor accepts the genesis
block (otherwise `Timechain::new` panics). -/
theorem C3_fork_choice (O : HashOracle) (L : Timechain) (hL : Reachable O L)
    (peer : List Block) (base : Timechain)
    (hbase : Timechain.new O genesisBlock = some base)
    (hinj : ∀ b0, peer.head? = some b0 → b0.hash O = genesisBlock.hash O → b0 = genesisBlock) :
    ((validate_and_sync_chain O peer L).isSome = true ↔
      (∃ b0 t, peer = b0 :: t
        ∧ b0.hash O = (L.blocks.headD genesisBlock).hash O
        ∧ (syncReplay O base t).isSome = true
        ∧ (peer.length > L.blocks.length ∨ chainWorkList peer > chainWorkList L.blocks)))
  ∧ (peer = L.blocks → validate_and_sync_chain O peer L = none) := by
  have hheadL : L.blocks.head? = some genesisBlock := (reachable_facts O L hL).2.2
  have hheadD : L.blocks.headD genesisBlock = genesisBlock := by
    cases hLb : L.blocks with
    | nil => rw [hLb] at hheadL; cases hheadL
    | cons hd tl =>
      rw [hLb] at hheadL
      simpa using hheadL
  have hbb : base.blocks = [genesisBlock] := (timechain_new_shape O base hbase).1
  have hiff : (validate_and_sync_chain O peer L).isSome = true ↔
      (∃ b0 t, peer = b0 :: t
        ∧ b0.hash O = (L.blocks.headD genesisBlock).hash O
        ∧ (syncReplay O base t).isSome = true
        ∧ (peer.length > L.blocks.length ∨ chainWorkList peer > chainWorkList L.blocks)) := by
    cases peer with
    | nil =>
      simp only [validate_and_sync_chain, Option.isSome_none]
      constructor
      · intro hq; simp at hq
      · rintro ⟨b0, t, heq, _⟩; cases heq
    | cons b0 t =>
      simp only [validate_and_sync_chain]
      by_cases hh : b0.hash O = (L.blocks.headD genesisBlock).hash O
      · rw [if_neg (by simpa using hh)]
        simp only [hbase]
        have hb0 : b0 = genesisBlock := hinj b0 rfl (by rw [hh, hheadD])
        cases hs : syncReplay O base t with
        | none =>
          simp only [Option.isSome_none]
          constructor
          · intro hq; simp at hq
          · rintro ⟨b0', t', heq, _, hrep, _⟩
            obtain rfl : t' = t := (List.cons.inj heq.symm).2
            rw [hs] at hrep
            simp at hrep
        | some cand =>
          simp only
          have hcb : cand.blocks = (b0 :: t : List Block) := by
            rw [syncReplay_blocks O t base cand hs, hbb, hb0]
            rfl
          have hwork : calculate_chain_work cand = chainWorkList (b0 :: t) := by
            show chainWorkList cand.blocks = chainWorkList (b0 :: t)
            rw [hcb]
          by_cases hcond : cand.blocks.length > L.blocks.length ∨
              calculate_chain_work cand > calculate_chain_work L
          · rw [if_pos hcond]
            simp only [Option.isSome_some, true_iff]
            refine ⟨b0, t, rfl, hh, by rw [hs]; rfl, ?_⟩
            rcases hcond with hq | hq
            · refine Or.inl ?_
              rw [hcb] at hq
              exact hq
            · refine Or.inr ?_
              rw [hwork] at hq
              exact hq
          · rw [if_neg hcond]
            simp only [Option.isSome_none]
            constructor
            · intro hq; simp at hq
            · rintro ⟨b0', t', heq, _, _, hc⟩
              obtain rfl : b0' = b0 := (List.cons.inj heq.symm).1
              obtain rfl : t' = t := (List.cons.inj heq.symm).2
              refine absurd ?_ hcond
              rcases hc with hq | hq
              · refine Or.inl ?_
                rw [hcb]
                exact hq
              · refine Or.inr ?_
                rw [hwork]
                exact hq
      · rw [if_pos (by simpa using hh)]
        simp only [Option.isSome_none]
        constructor
        · intro hq; simp at hq
        · rintro ⟨b0', t', heq, hh', _, _⟩
          obtain rfl : b0' = b0 := (List.cons.inj heq.symm).1
          exact absurd hh' hh
  refine ⟨hiff, ?_⟩
  intro hpe
  cases hv : validate_and_sync_chain O peer L with
  | none => rfl
  | some cand =>
    exfalso
    have hsome : (validate_and_sync_chain O peer L).isSome = true := by rw [hv]; rfl
    obtain ⟨b0, t, hpeer, _, _, hcond⟩ := hiff.mp hsome
    rw [hpe] at hcond
    rcases hcond with hq | hq
    · exact lt_irrefl _ hq
    · exact lt_irrefl _ hq

set_option maxRecDepth 400000 in
/-- C3 witness: the theorem applied with the concrete oracle — the two-block
peer chain `[genesis, b1]` is adopted over the genesis-only local chain, and
the peer chain equal to the local chain is not adopted. -/
theorem C3_witness :
    (validate_and_sync_chain O0 [genesisBlock, b1] tc0).isSome = true
  ∧ validate_and_sync_chain O0 tc0.blocks tc0 = none := by
  have hL : Reachable O0 tc0 := Reachable.genesis tc0 new_O0_eq
  constructor
  · refine (C3_fork_choice O0 tc0 hL [genesisBlock, b1] tc0 new_O0_eq
      (fun b0 hb0 _ => (Option.some.inj hb0).symm)).1.mpr ?_
    exact ⟨genesisBlock, [b1], rfl, rfl, rfl, Or.inl (by decide)⟩
  · exact (C3_fork_choice O0 tc0 hL tc0.blocks tc0 new_O0_eq
      (fun b0 hb0 _ => (Option.some.inj hb0).symm)).2 rfl

theorem lwmaAccum_stable (w : Nat → BlockHeader) (D : Nat)
    (hts : ∀ i, i < 60 → (w (i + 1)).timestamp = (w i).timestamp + 1800)
    (hdiff : ∀ i, 1 ≤ i → i ≤ 60 → (w i).difficulty = D) :
    ∀ k, k ≤ 60 → (lwmaAccum w k).1 = 900 * k * (k + 1) ∧ (lwmaAccum w k).2 = k * D := by
  intro k
  induction k with
  | zero => intro _; simp [lwmaAccum]
  | succ k ih =>
    intro hk
    obtain ⟨ih1, ih2⟩ := ih (by omega)
    have hUM : U64MAX = 18446744073709551615 := by norm_num [U64MAX]
    have ht := hts k (by omega)
    have hdl : (w (k + 1)).difficulty = D := hdiff (k + 1) (by omega : 1 ≤ k + 1) (by omega : k + 1 ≤ 60)
    have hkk : k * (k + 1) ≤ 3660 := Nat.mul_le_mul (show k ≤ 60 by omega) (show k + 1 ≤ 61 by omega)
    have hkk2 : (k + 1) * (k + 2) ≤ 3782 := Nat.mul_le_mul (show k + 1 ≤ 61 by omega) (show k + 2 ≤ 62 by omega)
    have hsm : satMul 1800 (k + 1) = 1800 * (k + 1) := by
      unfold satMul
      apply Nat.min_eq_left
      rw [hUM]
      omega
    have hsa : satAdd (900 * k * (k + 1)) (1800 * (k + 1)) = 900 * (k + 1) * (k + 2) := by
      unfold satAdd
      have heq : 900 * k * (k + 1) + 1800 * (k + 1) = 900 * ((k + 1) * (k + 2)) := by ring
      rw [heq]
      rw [show (900 : Nat) * (k + 1) * (k + 2) = 900 * ((k + 1) * (k + 2)) from by ring]
      apply Nat.min_eq_left
      rw [hUM]
      omega
    constructor
    · simp only [lwmaAccum, ih1, Nat.add_sub_cancel, ht, Nat.add_sub_cancel_left]
      rw [show max 1800 1 = 1800 from by norm_num]
      rw [hsm, hsa]
    · simp only [lwmaAccum, ih2, hdl]
      ring


theorem lwma_stable_core (hdrs : List BlockHeader) (D : Nat)
    (hlen : LWMA_WINDOW + 1 ≤ hdrs.length)
    (hts : ∀ i, i + 1 < hdrs.length →
      (hdrs.getD (i + 1) ⟨0, 0, 0⟩).timestamp = (hdrs.getD i ⟨0, 0, 0⟩).timestamp + 1800)
    (hdiff : ∀ hd ∈ hdrs, hd.difficulty = D)
    (hrep : D < 2 ^ 53) :
    calculate_lwma_difficulty hdrs = max D MIN_DIFFICULTY := by
  have hlen61 : 61 ≤ hdrs.length := by simpa [LWMA_WINDOW] using hlen
  have hlen' : ¬ hdrs.length < LWMA_WINDOW + 1 := by simp only [LWMA_WINDOW]; omega
  have hw : ∀ i, i ≤ 60 →
      (hdrs.drop (hdrs.length - (60 + 1))).getD i ⟨0, 0, 0⟩ =
        hdrs.getD (hdrs.length - 61 + i) ⟨0, 0, 0⟩ := by
    intro i hi
    rw [List.getD_eq_getElem?_getD, List.getElem?_drop, ← List.getD_eq_getElem?_getD]
  have hw1 : ∀ i, i < 60 →
      ((fun j => (hdrs.drop (hdrs.length - (60 + 1))).getD j ⟨0, 0, 0⟩) (i + 1)).timestamp =
        ((fun j => (hdrs.drop (hdrs.length - (60 + 1))).getD j ⟨0, 0, 0⟩) i).timestamp + 1800 := by
    intro i hi
    simp only
    rw [hw (i + 1) (by omega), hw i (by omega),
      show hdrs.length - 61 + (i + 1) = (hdrs.length - 61 + i) + 1 from by omega]
    exact hts (hdrs.length - 61 + i) (by omega)
  have hw2 : ∀ i, 1 ≤ i → i ≤ 60 →
      ((fun j => (hdrs.drop (hdrs.length - (60 + 1))).getD j ⟨0, 0, 0⟩) i).difficulty = D := by
    intro i h1 h2
    simp only
    rw [hw i (by omega)]
    have hidx : hdrs.length - 61 + i < hdrs.length := by omega
    rw [List.getD_eq_getElem _ _ hidx]
    exact hdiff _ (List.getElem_mem hidx)
  obtain ⟨ha1, ha2⟩ := lwmaAccum_stable
    (fun j => (hdrs.drop (hdrs.length - (60 + 1))).getD j ⟨0, 0, 0⟩) D hw1 hw2 60 (le_refl 60)
  simp only [calculate_lwma_difficulty]
  rw [if_neg hlen']
  simp only [LWMA_WINDOW, TARGET_BLOCK_TIME, MIN_DIFFICULTY]
  rw [ha1, ha2]
  rw [show (900 : Nat) * 60 * (60 + 1) = 3294000 from by norm_num]
  rw [show satMul (satMul 1800 60) (60 + 1) / 2 = 3294000 from by
    norm_num [satMul, U64MAX, Nat.min_def]]
  rw [show (60 : Nat) * D / 60 = D from Nat.mul_div_cancel_left D (by norm_num)]
  rw [if_neg (by norm_num : ¬((3294000 : Nat) = 0 ∨ (3294000 : Nat) = 0))]
  have hq : ((((3294000 : Nat) : ℚ) / ((3294000 : Nat) : ℚ)) ⊔ 33 / 100) ⊓ 3 = 1 := by
    norm_num
  rw [hq, mul_one, Int.floor_natCast]
  have hUM : U64MAX = 18446744073709551615 := by norm_num [U64MAX]
  have hDU : ((D : ℤ)).toNat ⊓ U64MAX = D := by
    rw [show ((D : ℤ)).toNat = D from rfl]
    apply min_eq_left
    rw [hUM]
    have h53 : (2 : Nat) ^ 53 = 9007199254740992 := by norm_num
    omega
  rw [hDU]

/-- Embedding of `stableHeaders` has the announced length. -/
theorem stableHeaders_length (n bt D : Nat) : (stableHeaders n bt D).length = n := by
  simp [stableHeaders]

/-- Indexing into `stableHeaders`. -/
theorem stableHeaders_getD (n bt D i : Nat) (h : i < n) :
    (stableHeaders n bt D).getD i ⟨0, 0, 0⟩ = ⟨i, 1700000000 + bt * i, D⟩ := by
  unfold stableHeaders
  rw [List.getD_eq_getElem _ _ (by simpa using h)]
  simp

/-- Consecutive `stableHeaders` timestamps are exactly `bt` apart. -/
theorem stableHeaders_ts (n bt D : Nat) : ∀ i, i + 1 < (stableHeaders n bt D).length →
    ((stableHeaders n bt D).getD (i + 1) ⟨0, 0, 0⟩).timestamp =
      ((stableHeaders n bt D).getD i ⟨0, 0, 0⟩).timestamp + bt := by
  intro i hi
  rw [stableHeaders_length] at hi
  rw [stableHeaders_getD n bt D (i + 1) (by omega), stableHeaders_getD n bt D i (by omega)]
  simp only
  ring

/-- Every `stableHeaders` entry has the constant difficulty. -/
theorem stableHeaders_diff (n bt D : Nat) :
    ∀ hd ∈ stableHeaders n bt D, hd.difficulty = D := by
  intro hd hmem
  simp only [stableHeaders, List.mem_map, List.mem_range] at hmem
  obtain ⟨i, _, rfl⟩ := hmem
  rfl

/-- C7 counterexample: 100 headers at exact 1800-second intervals with
constant difficulty 1, an instance of the claim's input family; the code
returns the `MIN_DIFFICULTY` floor 1000, which is not in `[0.9·1, 1.1·1]`, so
the claim's "for every difficulty value D" fails at D = 1. -/
theorem C7_lwma_counterexample :
    calculate_lwma_difficulty (stableHeaders 100 1800 1) = 1000
  ∧ ¬(9 * 1 ≤ 10 * calculate_lwma_difficulty (stableHeaders 100 1800 1) ∧
      10 * calculate_lwma_difficulty (stableHeaders 100 1800 1) ≤ 11 * 1) := by
  have h := lwma_stable_core (stableHeaders 100 1800 1) 1
    (by rw [stableHeaders_length]; norm_num [LWMA_WINDOW])
    (stableHeaders_ts 100 1800 1)
    (stableHeaders_diff 100 1800 1)
    (by norm_num)
  rw [h]
  exact ⟨by decide, by decide⟩

/-- C7 amended: for every difficulty `D` with `MIN_DIFFICULTY ≤ D < 2^53`
(the range in which the `f64` steps are exact and the `MIN_DIFFICULTY` floor
is inert) and every header list of at least `LWMA_WINDOW + 1` headers whose
consecutive timestamps are exactly 1800 seconds apart at constant difficulty
`D`, `calculate_lwma_difficulty` returns exactly `D`, hence a value in
`[0.9·D, 1.1·D]`; in particular 100 headers at 1800-second intervals with
difficulty 100_000 yield a value in `[90_000, 110_000]`. -/
theorem C7_lwma_stable_amended (hdrs : List BlockHeader) (D : Nat)
    (hlen : LWMA_WINDOW + 1 ≤ hdrs.length)
    (hts : ∀ i, i + 1 < hdrs.length →
      (hdrs.getD (i + 1) ⟨0, 0, 0⟩).timestamp = (hdrs.getD i ⟨0, 0, 0⟩).timestamp + 1800)
    (hdiff : ∀ hd ∈ hdrs, hd.difficulty = D)
    (hmin : MIN_DIFFICULTY ≤ D) (hrep : D < 2 ^ 53) :
    calculate_lwma_difficulty hdrs = D
  ∧ 9 * D ≤ 10 * calculate_lwma_difficulty hdrs
  ∧ 10 * calculate_lwma_difficulty hdrs ≤ 11 * D := by
  have h := lwma_stable_core hdrs D hlen hts hdiff hrep
  rw [h, max_eq_left hmin]
  omega

/-- C7 witness: the theorem applied to the spec's S5 scenario — 100 headers at
1800-second intervals with difficulty 100_000 — yields exactly 100_000, inside
`[90_000, 110_000]`. -/
theorem C7_witness :
    calculate_lwma_difficulty (stableHeaders 100 1800 100000) = 100000
  ∧ 90000 ≤ calculate_lwma_difficulty (stableHeaders 100 1800 100000)
  ∧ calculate_lwma_difficulty (stableHeaders 100 1800 100000) ≤ 110000 := by
  have h := C7_lwma_stable_amended (stableHeaders 100 1800 100000) 100000
    (by rw [stableHeaders_length]; norm_num [LWMA_WINDOW])
    (stableHeaders_ts 100 1800 100000)
    (stableHeaders_diff 100 1800 100000)
    (by norm_num [MIN_DIFFICULTY])
    (by norm_num)
  refine ⟨h.1, ?_, ?_⟩ <;> omega

end AXM

